import Mathlib

/-!
Shallow embedding of the Atlantis pearl scheduler (src/atlantis/) and proofs
about the claims of its specification.

The embedding follows the Python source module by module:
pearls.py, workers.py, commands.py, world.py, simulators.py.
Machine integers are modelled as Nat (all quantities in the source are
non-negative counts); Python dicts are modelled as association lists that keep
insertion order, or as total functions when the source uses a defaultdict;
code paths on which the Python source raises an exception are modelled with
Except/Option.
-/

namespace Atlantis

/-! ## pearls.py -/

inductive PearlColor
  | Red
  | Green
  | Blue
deriving DecidableEq, Repr

structure PearlLayer where
  color : PearlColor
  thickness : Nat
deriving DecidableEq, Repr

structure Pearl where
  id : Nat
  layers : List PearlLayer
deriving DecidableEq, Repr

/-- Sum of all layer thicknesses (source: `Pearl.remaining_thickness`, which
sums every layer since the optional color filter is never passed). -/
def Pearl.remaining_thickness (p : Pearl) : Nat :=
  (p.layers.map (fun l => l.thickness)).sum

/-- A pearl is digested when no layer has a non-zero thickness
(source: `Pearl.digested` via `remaining_layers`). -/
def Pearl.digested (p : Pearl) : Bool :=
  p.layers.all (fun l => l.thickness == 0)

/-! ## workers.py -/

inductive WorkerKind
  | General
  | Vector
  | Matrix
deriving DecidableEq, Repr

structure Worker where
  id : Nat
  kind : WorkerKind
  pearls : List Pearl
deriving DecidableEq, Repr

/-- The fixed per-color processing-rate table of
`GeneralWorker/VectorWorker/MatrixWorker.processing_rate`. -/
def processing_rate : WorkerKind → PearlColor → Nat
  | .General, _ => 1
  | .Vector, .Red => 1
  | .Vector, .Green => 5
  | .Vector, .Blue => 2
  | .Matrix, .Red => 1
  | .Matrix, .Green => 2
  | .Matrix, .Blue => 10

/-- Source: `Worker.cost_layer` computes `ceil((thickness * 1.0) / rate)` with
float division; on the u32 thickness domain of the snapshot schema the float
result is exact (rates are 1, 2, 5, 10 and a nonzero fractional part of the
quotient is at least 0.1, far above one ulp), so it equals the mathematical
ceiling of the rational quotient.  The embedding uses the equivalent ceiling
division on Nat; the equivalence with the rational ceiling is proved in
`cost_layer_eq_ceil` below. -/
def Worker.cost_layer (w : Worker) (l : PearlLayer) : Nat :=
  (l.thickness + processing_rate w.kind l.color - 1) / processing_rate w.kind l.color

/-- Source: `Worker.cost_pearl`, the sum of `cost_layer` over all layers. -/
def Worker.cost_pearl (w : Worker) (p : Pearl) : Nat :=
  (p.layers.map (fun l => w.cost_layer l)).sum

/-! ## commands.py -/

inductive Command
  | pass (worker_id : Nat) (pearl_id : Nat) (target_worker_id : Nat)
  | nom (worker_id : Nat) (pearl_id : Nat)
deriving DecidableEq, Repr

/-- The `worker_id` field shared by both command classes: the source worker of
a Pass, the processing worker of a Nom. -/
def Command.worker_id : Command → Nat
  | .pass w _ _ => w
  | .nom w _ => w

def Command.pearl_id : Command → Nat
  | .pass _ p _ => p
  | .nom _ p => p

/-! ## Association lists (insertion-ordered dicts) -/

/-- Dict lookup. -/
def lookupA {α : Type} (l : List (Nat × α)) (k : Nat) : Option α :=
  match l with
  | [] => none
  | (k1, v) :: rest => if k1 = k then some v else lookupA rest k

/-- Dict write: replace in place when the key is present, append otherwise
(Python dicts keep insertion order). -/
def setA {α : Type} (l : List (Nat × α)) (k : Nat) (v : α) : List (Nat × α) :=
  match l with
  | [] => [(k, v)]
  | (k1, v1) :: rest => if k1 = k then (k1, v) :: rest else (k1, v1) :: setA rest k v

/-- Dict key deletion. -/
def removeA {α : Type} (l : List (Nat × α)) (k : Nat) : List (Nat × α) :=
  match l with
  | [] => []
  | (k1, v1) :: rest => if k1 = k then rest else (k1, v1) :: removeA rest k

/-! ## world.py -/

structure World where
  workers : List Worker
  neighbor_map : List (Nat × Nat)
  score : Int
deriving DecidableEq, Repr

/-- Lookup in the `workers` dict (`World.create_from` keys each worker by its
own id, so dict lookup by key and search by the id attribute agree). -/
def World.findWorker (w : World) (i : Nat) : Option Worker :=
  w.workers.find? (fun x => x.id == i)

/-- Insert an id into an ascending list, keeping it sorted and duplicate-free
(models the `set` plus `sorted(..., key=attrgetter("id"))` of `World.__init__`). -/
def insertSorted (i : Nat) (l : List Nat) : List Nat :=
  match l with
  | [] => [i]
  | x :: rest =>
    if i < x then i :: x :: rest
    else if i = x then x :: rest
    else x :: insertSorted i rest

/-- The ids adjacent to worker `i` in ascending order (source:
`World.worker_neighbors`, built from both directions of every edge, stored as a
set and sorted ascending by id). -/
def World.neighborIds (w : World) (i : Nat) : List Nat :=
  w.neighbor_map.foldl
    (fun acc e =>
      if e.1 = i then insertSorted e.2 acc
      else if e.2 = i then insertSorted e.1 acc
      else acc)
    []

/-- The sorted neighbor list of worker `i` as Worker values (source:
`world.worker_neighbors[worker]`).  For a worker that appears in no edge the
source dict has no entry and would raise KeyError; that path is unreachable on
the connected snapshots of the schema with at least two workers. -/
def World.worker_neighbors (w : World) (i : Nat) : List Worker :=
  (w.neighborIds i).filterMap (fun j => w.findWorker j)

/-- Faithful model of `World.get_pearls_with_workers`.  The source iterates
`worker.pearls`, which is a `Dict[int, Pearl]`, so iteration yields the pearl
ids (ints), not Pearl objects, despite the `Dict[Pearl, Worker]` annotation on
`pearl_workers`; the map is therefore keyed by pearl id. -/
def World.get_pearls_with_workers (w : World) : List (Nat × Worker) :=
  w.workers.foldl
    (fun acc worker => worker.pearls.foldl (fun acc2 p => setA acc2 p.id worker) acc)
    []

/-- The iteration `World.get_pearls_with_workers` was annotated to produce
(`Dict[Pearl, Worker]`): each Pearl object on each desk paired with its
holder, in snapshot order.  `AtlantisSimulator.step` is written against this
typed view (it reads `pearl.id`, `pearl.digested`, ...); the shipped accessor
actually yields ids (see `World.get_pearls_with_workers` and claim C1). -/
def World.get_pearls_with_workers_typed (w : World) : List (Pearl × Worker) :=
  w.workers.foldr
    (fun worker acc => worker.pearls.map (fun p => (p, worker)) ++ acc)
    []

/-! ## simulators.py — scheduler state -/

/-- The cross-tick state of `AtlantisSimulator`: `execution_plans` maps a pearl
id to its remaining commands, `worker_costs` is the booked load per worker
(a defaultdict, modelled as a total function with default 0), and
`worker_affinities` is `None` until the first step computes it. -/
structure SimState where
  execution_plans : List (Nat × List Command)
  worker_costs : Nat → Nat
  worker_affinities : Option (Nat → Nat)

def initState : SimState := ⟨[], fun _ => 0, none⟩

def bumpCost (f : Nat → Nat) (k : Nat) : Nat → Nat :=
  fun i => if i = k then f k + 1 else f i

/-- `max(0, c - 1)` on the booked load; truncated Nat subtraction. -/
def decCost (f : Nat → Nat) (k : Nat) : Nat → Nat :=
  fun i => if i = k then f k - 1 else f i

/-! ## simulators.py — find_shortest_path -/

/-- Lexicographic strict order on heap entries `(cost, worker_id)`. -/
def qLt (a b : Nat × Nat) : Bool :=
  a.1 < b.1 || (a.1 == b.1 && a.2 < b.2)

/-- The minimum entry of a `heapq` heap of `(cost, id)` pairs. -/
def minQ : List (Nat × Nat) → Option (Nat × Nat)
  | [] => none
  | x :: rest => some (rest.foldl (fun m y => if qLt y m then y else m) x)

def removeFirstQ (l : List (Nat × Nat)) (x : Nat × Nat) : List (Nat × Nat) :=
  match l with
  | [] => []
  | y :: rest => if y = x then rest else y :: removeFirstQ rest x

/-- `heapq.heappop`: remove and return the least `(cost, id)` entry. -/
def popMinQ (l : List (Nat × Nat)) : Option ((Nat × Nat) × List (Nat × Nat)) :=
  (minQ l).map (fun m => (m, removeFirstQ l m))

/-- In `find_shortest_path` the read `move_costs.get(n.id, inf)` looks up an
integer key in a dict that only ever receives Worker-object keys (the source
annotates it `Dict[Worker, int]`, initialises it with `{start: 0}` and writes
`move_costs[n] = move_cost`); the lookup therefore never finds a binding and
always yields the `inf` default.  The embedding keeps the id-keyed content
(that content is what the caller consumes via `.items()`) and models this
particular read, which sees only Worker-object keys, as always missing. -/
def getByIntKey (_ : List (Nat × Nat)) (_ : Nat) : Option Nat := none

/-- One visit of the Dijkstra loop of `AtlantisSimulator.find_shortest_path`,
fuel-bounded.  State: priority queue, visited ids, predecessor map
(`move_paths`, worker id to predecessor Worker), distance map (`move_costs`).
The fuel passed by `find_shortest_path` exceeds the total number of queue
insertions, so the fuel-exhaustion branch is never taken. -/
def find_shortest_path_go (world : World) (worker_costs : Nat → Nat) (endW : Option Nat) :
    Nat → List (Nat × Nat) → List Nat → List (Nat × Worker) → List (Nat × Nat) →
    List (Nat × Worker) × List (Nat × Nat)
  | 0, _, _, paths, costs => (paths, costs)
  | Nat.succ fuel, queue, visited, paths, costs =>
    match popMinQ queue with
    | none => (paths, costs)
    | some ((cost, wid), rest) =>
      if wid ∈ visited then
        find_shortest_path_go world worker_costs endW fuel rest visited paths costs
      else
        let visited2 := wid :: visited
        if endW = some wid then (paths, costs)
        else
          match world.findWorker wid with
          | none => (paths, costs)
          | some _ =>
            let acc :=
              (world.worker_neighbors wid).foldl
                (fun (acc : List (Nat × Worker) × List (Nat × Nat) × List (Nat × Nat)) n =>
                  if n.id ∈ visited2 then acc
                  else
                    let move_cost := cost + worker_costs n.id + 1
                    let doRelax :=
                      match world.findWorker wid with
                      | some workerObj =>
                        (setA acc.1 n.id workerObj, setA acc.2.1 n.id move_cost,
                          acc.2.2 ++ [(move_cost, n.id)])
                      | none => acc
                    match getByIntKey acc.2.1 n.id with
                    | some last => if move_cost < last then doRelax else acc
                    | none => doRelax)
                (paths, costs, rest)
            find_shortest_path_go world worker_costs endW fuel acc.2.2 visited2 acc.1 acc.2.1

/-- Fuel bound for `find_shortest_path_go`: every loop iteration consumes one
queue entry, and at most `1 + V * V` entries are ever inserted (each settled
node pushes at most one entry per neighbor). -/
def fspFuel (world : World) : Nat :=
  (world.workers.length + 1) * (world.workers.length + 1) + world.workers.length + 2

/-- `AtlantisSimulator.find_shortest_path`: Dijkstra from `start`, optionally
stopping at `endW`; returns `(move_paths, move_costs)`. -/
def find_shortest_path (world : World) (worker_costs : Nat → Nat) (start : Nat)
    (endW : Option Nat) : List (Nat × Worker) × List (Nat × Nat) :=
  find_shortest_path_go world worker_costs endW (fspFuel world) [(0, start)] [] [] [(start, 0)]

/-- The routing kernel as claim C3 reads it: identical to
`find_shortest_path_go` except that the relaxation guard actually reads the
recorded distance of the neighbor (`move_cost < move_costs[n]`), so a node is
re-relaxed only on a strict improvement and on equal new distances the
first-discovered predecessor is kept. -/
def find_shortest_path_claimed_go (world : World) (worker_costs : Nat → Nat) (endW : Option Nat) :
    Nat → List (Nat × Nat) → List Nat → List (Nat × Worker) → List (Nat × Nat) →
    List (Nat × Worker) × List (Nat × Nat)
  | 0, _, _, paths, costs => (paths, costs)
  | Nat.succ fuel, queue, visited, paths, costs =>
    match popMinQ queue with
    | none => (paths, costs)
    | some ((cost, wid), rest) =>
      if wid ∈ visited then
        find_shortest_path_claimed_go world worker_costs endW fuel rest visited paths costs
      else
        let visited2 := wid :: visited
        if endW = some wid then (paths, costs)
        else
          match world.findWorker wid with
          | none => (paths, costs)
          | some _ =>
            let acc :=
              (world.worker_neighbors wid).foldl
                (fun (acc : List (Nat × Worker) × List (Nat × Nat) × List (Nat × Nat)) n =>
                  if n.id ∈ visited2 then acc
                  else
                    let move_cost := cost + worker_costs n.id + 1
                    let doRelax :=
                      match world.findWorker wid with
                      | some workerObj =>
                        (setA acc.1 n.id workerObj, setA acc.2.1 n.id move_cost,
                          acc.2.2 ++ [(move_cost, n.id)])
                      | none => acc
                    match lookupA acc.2.1 n.id with
                    | some last => if move_cost < last then doRelax else acc
                    | none => doRelax)
                (paths, costs, rest)
            find_shortest_path_claimed_go world worker_costs endW fuel acc.2.2 visited2 acc.1 acc.2.1

def find_shortest_path_claimed (world : World) (worker_costs : Nat → Nat) (start : Nat)
    (endW : Option Nat) : List (Nat × Worker) × List (Nat × Nat) :=
  find_shortest_path_claimed_go world worker_costs endW (fspFuel world) [(0, start)] [] []
    [(start, 0)]

def listMaxNat (l : List Nat) : Nat := l.foldl max 0

/-- `AtlantisSimulator.create_worker_affinities`: distances from the
gatekeeper, each worker penalised by `max_cost - cost`; workers absent from
`move_costs` read the defaultdict default 0.  `none` models the KeyError of
`world.workers[0]` when no gatekeeper exists. -/
def create_worker_affinities (world : World) (worker_costs : Nat → Nat) :
    Option (Nat → Nat) :=
  (world.findWorker 0).map (fun gatekeeper =>
    let mc := (find_shortest_path world worker_costs gatekeeper.id none).2
    let max_cost := listMaxNat (mc.map (fun x => x.2))
    fun wid =>
      match lookupA mc wid with
      | some c => max_cost - c
      | none => 0)

/-! ## simulators.py — select_best_worker_route -/

/-- One neighbor evaluation of `select_best_worker_route`: skip unless the new
move cost strictly improves the recorded one (here the source reads the dict
with the Worker key it also writes, so the read really hits); on a relaxation,
record path and cost, append to the FIFO queue, and take the neighbor as new
best when `processing + move + booking` beats the current best strictly.
Accumulator: `(queue, move_costs, move_paths, best_cost, best_worker)`. -/
def sbw_relax (pearl : Pearl) (wc aff : Nat → Nat) (w : Worker) (mc1 : Nat)
    (acc : List (Nat × Worker) × List (Nat × Nat) × List (Nat × Worker) × Nat × Worker)
    (n : Worker) :
    List (Nat × Worker) × List (Nat × Nat) × List (Nat × Worker) × Nat × Worker :=
  let skip : Bool :=
    match lookupA acc.2.1 n.id with
    | some old => decide (old ≤ mc1)
    | none => false
  if skip then acc
  else
    let queue2 := acc.1 ++ [(mc1, n)]
    let mcosts2 := setA acc.2.1 n.id mc1
    let paths2 := setA acc.2.2.1 n.id w
    let total := n.cost_pearl pearl + mc1 + (wc n.id + aff n.id)
    if total < acc.2.2.2.1 then (queue2, mcosts2, paths2, total, n)
    else (queue2, mcosts2, paths2, acc.2.2.2.1, acc.2.2.2.2)

/-- The FIFO search loop of `select_best_worker_route`, fuel-bounded: pop the
queue head, prune when its move cost already meets the best total, otherwise
relax all sorted neighbors with move cost one higher. -/
def sbw_go (world : World) (pearl : Pearl) (wc aff : Nat → Nat) :
    Nat → List (Nat × Worker) → List (Nat × Nat) → List (Nat × Worker) → Nat → Worker →
    Nat × Worker × List (Nat × Worker)
  | 0, _, _, paths, bc, bw => (bc, bw, paths)
  | Nat.succ fuel, queue, mcosts, paths, bc, bw =>
    match queue with
    | [] => (bc, bw, paths)
    | (mc, w) :: rest =>
      if bc ≤ mc then sbw_go world pearl wc aff fuel rest mcosts paths bc bw
      else
        let acc :=
          (world.worker_neighbors w.id).foldl (sbw_relax pearl wc aff w (mc + 1))
            (rest, mcosts, paths, bc, bw)
        sbw_go world pearl wc aff fuel acc.1 acc.2.1 acc.2.2.1 acc.2.2.2.1 acc.2.2.2.2

/-- Fuel bound for `sbw_go`: a node is re-queued only when its recorded move
cost strictly decreases, and every queued move cost is below the initial best
total, so the queue receives fewer than `(V + 2) * (V + 2) * (bc0 + 2)`
entries. -/
def sbwFuel (world : World) (bc0 : Nat) : Nat :=
  (world.workers.length + 2) * (world.workers.length + 2) * (bc0 + 2) + 2

/-- The score `select_best_worker_route` assigns to a relaxation event
`(move_cost, n)`: `processing + move + booking`, the booking being the booked
load plus the affinity of the candidate. -/
def totalOf (pearl : Pearl) (wc aff : Nat → Nat) (e : Nat × Worker) : Nat :=
  e.2.cost_pearl pearl + e.1 + (wc e.2.id + aff e.2.id)

/-- Specification companion of `sbw_relax`: the same relaxation step,
additionally recording the relaxation event `(move_cost, n)` and dropping the
path and best-worker components.  Accumulator:
`(queue, move_costs, best_cost, events)`. -/
def sbw_relax_ev (pearl : Pearl) (wc aff : Nat → Nat) (mc1 : Nat)
    (acc : List (Nat × Worker) × List (Nat × Nat) × Nat × List (Nat × Worker))
    (n : Worker) :
    List (Nat × Worker) × List (Nat × Nat) × Nat × List (Nat × Worker) :=
  let skip : Bool :=
    match lookupA acc.2.1 n.id with
    | some old => decide (old ≤ mc1)
    | none => false
  if skip then acc
  else
    let queue2 := acc.1 ++ [(mc1, n)]
    let mcosts2 := setA acc.2.1 n.id mc1
    let total := totalOf pearl wc aff (mc1, n)
    if total < acc.2.2.1 then (queue2, mcosts2, total, acc.2.2.2 ++ [(mc1, n)])
    else (queue2, mcosts2, acc.2.2.1, acc.2.2.2 ++ [(mc1, n)])

/-- Specification companion of `sbw_go`: the list of relaxation events the
FIFO search evaluates, in evaluation order. -/
def sbw_events (world : World) (pearl : Pearl) (wc aff : Nat → Nat) :
    Nat → List (Nat × Worker) → List (Nat × Nat) → Nat → List (Nat × Worker)
  | 0, _, _, _ => []
  | Nat.succ fuel, queue, mcosts, bc =>
    match queue with
    | [] => []
    | (mc, w) :: rest =>
      if bc ≤ mc then sbw_events world pearl wc aff fuel rest mcosts bc
      else
        let acc :=
          (world.worker_neighbors w.id).foldl (sbw_relax_ev pearl wc aff (mc + 1))
            (rest, mcosts, bc, [])
        acc.2.2.2 ++ sbw_events world pearl wc aff fuel acc.1 acc.2.1 acc.2.2.1

/-! ## simulators.py — route and command materialisation -/

/-- The backtracking loop of `AtlantisSimulator.create_route`: prepend
predecessors until the start worker is reached.  `none` models the KeyError
(or non-termination) on an incomplete predecessor map; the fuel passed by the
callers exceeds any acyclic path length. -/
def create_route_go (start : Worker) (paths : List (Nat × Worker)) :
    Nat → Worker → List Worker → Option (List Worker)
  | 0, _, _ => none
  | Nat.succ fuel, iterator, route =>
    if iterator.id = start.id then some route
    else
      match lookupA paths iterator.id with
      | none => none
      | some w => create_route_go start paths fuel w (w :: route)

def create_route (fuel : Nat) (start endW : Worker) (paths : List (Nat × Worker)) :
    Option (List Worker) :=
  create_route_go start paths fuel endW [endW]

/-- The Pass-emitting loop of `create_commands_from_route`: walk the route
pairwise, returning the Pass list and the final `current` worker. -/
def pass_fold (pid : Nat) : Worker → List Worker → List Command × Worker
  | cur, [] => ([], cur)
  | cur, w :: ws =>
    let r := pass_fold pid w ws
    (Command.pass cur.id pid w.id :: r.1, r.2)

/-- `AtlantisSimulator.create_commands_from_route`: Pass commands for each
consecutive route pair, then — unless the pearl is digested —
`cost_pearl(pearl, last)` Nom commands at the final route worker.  The source
indexes `route[0]`, so callers always pass a non-empty route; the empty case
is modelled as the empty plan. -/
def create_commands_from_route (pearl : Pearl) (route : List Worker) : List Command :=
  match route with
  | [] => []
  | current :: restR =>
    let r := pass_fold pearl.id current restR
    if pearl.digested then r.1
    else r.1 ++ List.replicate (r.2.cost_pearl pearl) (Command.nom r.2.id pearl.id)

/-- `AtlantisSimulator.select_best_worker_route`: initial best is the current
worker with `cost_pearl + worker_costs + worker_affinities` (the same booking
term for every start worker, the gatekeeper included), then the FIFO search,
then route reconstruction to the best worker. -/
def select_best_worker_route (world : World) (wc aff : Nat → Nat) (pearl : Pearl)
    (worker : Worker) : Option (List Worker) :=
  let bc0 := worker.cost_pearl pearl + (wc worker.id + aff worker.id)
  let r := sbw_go world pearl wc aff (sbwFuel world bc0) [(0, worker)] [(worker.id, 0)] []
    bc0 worker
  create_route (world.workers.length + 2) worker r.2.1 r.2.2

/-- `AtlantisSimulator.create_execution_plan`: digested pearls are routed back
to the gatekeeper (`find_route`), others to the best worker; either way the
route is turned into commands.  `none` models an escaped exception. -/
def create_execution_plan (world : World) (wc aff : Nat → Nat) (pearl : Pearl)
    (worker : Worker) : Option (List Command) :=
  if pearl.digested then
    match world.findWorker 0 with
    | none => none
    | some gatekeeper =>
      let paths := (find_shortest_path world wc worker.id (some gatekeeper.id)).1
      (create_route (world.workers.length + 2) worker gatekeeper paths).map
        (fun route => create_commands_from_route pearl route)
  else
    (select_best_worker_route world wc aff pearl worker).map
      (fun route => create_commands_from_route pearl route)

/-! ## simulators.py — step -/

/-- The plan-acquisition block of `AtlantisSimulator.step` (the `plan is None`
branch): reuse the stored plan when one exists for `pearl.id` — there is no
check against the current holder — otherwise build one, book one unit of
worker cost per command, and store it (an empty plan is stored too). -/
def acquire_plan (world : World) (aff : Nat → Nat) (s : SimState) (pearl : Pearl)
    (worker : Worker) : Except String (List Command × SimState) :=
  match lookupA s.execution_plans pearl.id with
  | some plan => .ok (plan, s)
  | none =>
    match create_execution_plan world s.worker_costs aff pearl worker with
    | none => .error "KeyError"
    | some plan =>
      .ok (plan,
        { s with
          worker_costs := plan.foldl (fun f cmd => bumpCost f cmd.worker_id) s.worker_costs
          execution_plans := setA s.execution_plans pearl.id plan })

/-- The value of the source expression
`1.0 / pearl.remaining_thickness if pearl.remaining_thickness else 0` as a
rational, written as an explicitly reduced fraction so that it is computable
by the kernel; `recipQ_eq_one_div` proves it equals `1 / t` for nonzero `t`. -/
def recipQ (t : Nat) : ℚ :=
  if h : t = 0 then 0
  else ⟨1, t, h, Nat.coprime_one_left t⟩

/-- `AtlantisSimulator.prioritize_command`: Pass commands get the reciprocal
of the remaining thickness (0 when digested), Nom commands the thickness
itself.  The float arithmetic of the source is exact as an order: on the u32
thickness domain distinct reciprocals stay distinct doubles and comparisons
against integer Nom priorities are exact, so the rational value is a faithful
model of the comparisons the heap performs. -/
def prioritize_command (cmd : Command) (p : Pearl) : ℚ :=
  match cmd with
  | .pass _ _ _ => recipQ p.remaining_thickness
  | .nom _ _ => (p.remaining_thickness : ℚ)

/-- `heapq.heappush` into `proposed_cmds[cmd.worker_id]`, grouping by worker
id in first-insertion order (Python defaultdict order). -/
def groupPush (g : List (Nat × List (ℚ × Nat × Command))) (k : Nat)
    (v : ℚ × Nat × Command) : List (Nat × List (ℚ × Nat × Command)) :=
  match g with
  | [] => [(k, [v])]
  | (k1, l) :: rest =>
    if k1 = k then (k1, l ++ [v]) :: rest else (k1, l) :: groupPush rest k v

/-- Strict lexicographic order on heap entries `(priority, pearl_id, cmd)`.
Python would compare the command objects on a full `(priority, pearl_id)` tie
and raise TypeError; distinct proposals always carry distinct pearl ids on
snapshots with unique pearl ids, so the command never takes part in the
comparison. -/
def keyLtB (a b : ℚ × Nat × Command) : Bool :=
  decide (a.1 < b.1) || (decide (a.1 = b.1) && decide (a.2.1 < b.2.1))

/-- `heapq.heappop` on a proposal heap: the least `(priority, pearl_id)`
entry. -/
def popMinG (l : List (ℚ × Nat × Command)) : Option (ℚ × Nat × Command) :=
  match l with
  | [] => none
  | x :: rest => some (rest.foldl (fun m y => if keyLtB y m then y else m) x)

/-- The first loop of `AtlantisSimulator.step`: per pearl (in snapshot order)
acquire a plan, take its head command (IndexError on an empty stored plan),
and push it into the per-worker proposal heaps with its priority. -/
def build_proposed (world : World) (aff : Nat → Nat) :
    List (Pearl × Worker) → SimState → List (Nat × List (ℚ × Nat × Command)) →
    Except String (List (Nat × List (ℚ × Nat × Command))) × SimState
  | [], s, acc => (.ok acc, s)
  | (pearl, worker) :: rest, s, acc =>
    match acquire_plan world aff s pearl worker with
    | .error e => (.error e, s)
    | .ok (plan, s2) =>
      match plan with
      | [] => (.error "IndexError", s2)
      | cmd :: _ =>
        build_proposed world aff rest s2
          (groupPush acc cmd.worker_id (prioritize_command cmd pearl, pearl.id, cmd))

/-- The second loop of `AtlantisSimulator.step`: per proposal group pop the
least entry, emit it for that worker, saturating-decrement the worker cost,
pop the front of the winning plan of that pearl and drop the plan when it
empties.  Losing entries of the group are discarded without touching their
plans. -/
def select_commands :
    List (Nat × List (ℚ × Nat × Command)) → SimState →
    Except String (List (Nat × Command)) × SimState
  | [], s => (.ok [], s)
  | (wid, grp) :: rest, s =>
    match popMinG grp with
    | none => (.error "IndexError", s)
    | some sel =>
      let s2 : SimState := { s with worker_costs := decCost s.worker_costs wid }
      match lookupA s2.execution_plans sel.2.1 with
      | none => (.error "KeyError", s2)
      | some plan =>
        match plan with
        | [] => (.error "IndexError", s2)
        | _ :: tl =>
          let s3 : SimState :=
            if tl.isEmpty then
              { s2 with execution_plans := removeA s2.execution_plans sel.2.1 }
            else
              { s2 with execution_plans := setA s2.execution_plans sel.2.1 tl }
          let r := select_commands rest s3
          (r.1.map (fun out => (wid, sel.2.2) :: out), r.2)

/-- The pearl ids whose plans win their proposal group and get popped by the
selection loop. -/
def selectedPids (groups : List (Nat × List (ℚ × Nat × Command))) : List Nat :=
  groups.filterMap (fun g => (popMinG g.2).map (fun m => m.2.1))

/-- `AtlantisSimulator.step` over the typed pearl iteration (see
`World.get_pearls_with_workers_typed`): memoize the worker affinities on the
first call, build the proposal heaps, then select one command per proposed
worker.  The returned state is the scheduler state at normal return or at the
point the modelled exception was raised. -/
def stepAtlantis (s : SimState) (world : World) :
    Except String (List (Nat × Command)) × SimState :=
  match (match s.worker_affinities with
         | some a => some a
         | none => create_worker_affinities world s.worker_costs) with
  | none => (.error "KeyError", s)
  | some aff =>
    let s1 : SimState := { s with worker_affinities := some aff }
    let built := build_proposed world aff world.get_pearls_with_workers_typed s1 []
    match built.1 with
    | .error e => (.error e, built.2)
    | .ok proposed => select_commands proposed built.2

/-- Faithful model of `AtlantisSimulator.step` up to its first pearl access:
after the affinity memoization, the loop binds `pearl` to the keys of
`World.get_pearls_with_workers`, which are pearl ids (ints, since
`Worker.pearls` is a dict and iterating it yields its keys), and immediately
evaluates `pearl.id`; Python raises AttributeError there whenever the
snapshot holds at least one pearl.  With no pearls the loops never run and
the empty command map is returned. -/
def stepFaithfulAtlantis (s : SimState) (world : World) :
    Except String (List (Nat × Command)) × SimState :=
  match (match s.worker_affinities with
         | some a => some a
         | none => create_worker_affinities world s.worker_costs) with
  | none => (.error "KeyError", s)
  | some aff =>
    let s1 : SimState := { s with worker_affinities := some aff }
    match world.get_pearls_with_workers with
    | [] => (.ok [], s1)
    | _ :: _ => (.error "AttributeError", s1)

/-! ## Concrete snapshots and states used by the theorems -/

/-- Scenario S2 of the specification: a Green-10 pearl at the General
gatekeeper, one Vector neighbor.  Satisfies every input precondition of the
snapshot schema (unique worker ids, edges over existing ids, connected graph
containing worker 0, thicknesses non-negative). -/
def pearlS2 : Pearl := ⟨7, [⟨.Green, 10⟩]⟩

def worldS2 : World := ⟨[⟨0, .General, [pearlS2]⟩, ⟨1, .Vector, []⟩], [(0, 1)], 0⟩

/-- A 4-cycle 0-1, 0-2, 1-3, 2-3 of General workers with no pearls: node 3 is
reached at distance 2 both through node 1 (discovered first) and through
node 2 (discovered second). -/
def worldSquare : World :=
  ⟨[⟨0, .General, []⟩, ⟨1, .General, []⟩, ⟨2, .General, []⟩, ⟨3, .General, []⟩],
    [(0, 1), (0, 2), (1, 3), (2, 3)], 0⟩

/-- A Red-1 pearl at the General gatekeeper with a General neighbor: the
claimed score (with the `2 * |workers|` gate penalty and no affinity term)
moves the pearl to worker 1, the source keeps it at the gatekeeper. -/
def pearlC4 : Pearl := ⟨7, [⟨.Red, 1⟩]⟩

def workerC4a : Worker := ⟨0, .General, [pearlC4]⟩

def workerC4b : Worker := ⟨1, .General, []⟩

def worldC4 : World := ⟨[workerC4a, workerC4b], [(0, 1)], 0⟩

/-- The affinity function the scheduler computes for `worldC4` on its first
step (gatekeeper penalised by the distance to the farthest worker). -/
def affC4 : Nat → Nat :=
  fun i => ((create_worker_affinities worldC4 (fun _ => 0)).getD (fun _ => 0)) i

/-- Two pearls on the desk of worker 3, both with a Pass into worker 0 at the
front of their plans: contention on worker 3 between a thickness-1 and a
thickness-2 pearl. -/
def pearlC5a : Pearl := ⟨1, [⟨.Red, 1⟩]⟩

def pearlC5b : Pearl := ⟨2, [⟨.Red, 2⟩]⟩

def worldC5 : World :=
  ⟨[⟨0, .General, []⟩, ⟨3, .General, [pearlC5a, pearlC5b]⟩], [(0, 3)], 0⟩

def stateC5 : SimState :=
  ⟨[(1, [.pass 3 1 0]), (2, [.pass 3 2 0])], fun _ => 0, some (fun _ => 0)⟩

/-- A pearl held by worker 3 whose stored plan starts with a Nom at worker 5:
the plan is stale with respect to the snapshot holder. -/
def pearlC6 : Pearl := ⟨7, [⟨.Red, 2⟩]⟩

def workerC6 : Worker := ⟨3, .General, [pearlC6]⟩

def worldC6 : World :=
  ⟨[⟨0, .General, []⟩, workerC6, ⟨5, .General, []⟩], [(0, 3), (0, 5)], 0⟩

def stateC6 : SimState := ⟨[(7, [.nom 5 7])], fun _ => 0, some (fun _ => 0)⟩

/-- A digested pearl (empty layer list) on the gatekeeper desk. -/
def pearlC7 : Pearl := ⟨9, []⟩

def worldC7 : World := ⟨[⟨0, .General, [pearlC7]⟩, ⟨1, .General, []⟩], [(0, 1)], 0⟩

/-- A small well-formed snapshot on which `stepAtlantis` returns normally,
used to instantiate the hypotheses of the general theorems. -/
def pearlC9 : Pearl := ⟨1, [⟨.Red, 1⟩]⟩

def worldC9 : World := ⟨[⟨0, .General, [pearlC9]⟩, ⟨1, .General, []⟩], [(0, 1)], 0⟩

/-! # Theorems

Shared helper lemmas first, then one theorem per claim (with its witness or
counterexample where required). -/

/-- The explicit reduced fraction `recipQ t` is the source value
`1.0 / t if t else 0`. -/
theorem recipQ_eq_one_div (t : Nat) :
    recipQ t = if t = 0 then 0 else 1 / (t : ℚ) := by
  unfold recipQ
  split
  · simp [*]
  · rw [Rat.mk'_eq_divInt, Rat.divInt_eq_div]
    push_cast
    rfl

/-- Ceiling division on Nat agrees with the ceiling of the rational
quotient. -/
theorem ceil_div_toNat (t r : Nat) (hr : 0 < r) :
    (Int.ceil ((t : ℚ) / (r : ℚ))).toNat = (t + r - 1) / r := by
  have hrq : (0 : ℚ) < (r : ℚ) := by exact_mod_cast hr
  have hle : t ≤ (t + r - 1) / r * r ∧ (t + r - 1) / r * r < t + r := by
    have hdm := Nat.div_add_mod (t + r - 1) r
    have hm : (t + r - 1) % r < r := Nat.mod_lt _ hr
    have hc : (t + r - 1) / r * r = r * ((t + r - 1) / r) := Nat.mul_comm _ _
    generalize hq : (t + r - 1) / r * r = a at hc ⊢
    generalize hmm : (t + r - 1) % r = m at hdm hm
    omega
  generalize hq : (t + r - 1) / r = q at hle ⊢
  have hceil : Int.ceil ((t : ℚ) / (r : ℚ)) = ((q : ℕ) : ℤ) := by
    rw [Int.ceil_eq_iff]
    refine ⟨?_, ?_⟩
    · rw [lt_div_iff₀ hrq]
      have h3 : ((q * r : ℕ) : ℚ) < ((t + r : ℕ) : ℚ) := by exact_mod_cast hle.2
      push_cast at h3 ⊢
      linarith
    · rw [div_le_iff₀ hrq]
      have h3 : ((t : ℕ) : ℚ) ≤ ((q * r : ℕ) : ℚ) := by exact_mod_cast hle.1
      push_cast at h3 ⊢
      linarith
  rw [hceil, Int.toNat_natCast]

/-- Every entry of the rate table is positive. -/
theorem processing_rate_pos (k : WorkerKind) (c : PearlColor) :
    0 < processing_rate k c := by
  cases k <;> cases c <;> decide

/-- The embedded `cost_layer` is the ceiling of the rational quotient that the
float expression of the source computes. -/
theorem cost_layer_eq_ceil (w : Worker) (l : PearlLayer) :
    w.cost_layer l =
      (Int.ceil ((l.thickness : ℚ) / (processing_rate w.kind l.color : ℚ))).toNat := by
  rw [Worker.cost_layer, ceil_div_toNat _ _ (processing_rate_pos _ _)]

/-- The Pass-emitting loop returns the consecutive route pairs and the last
route worker. -/
theorem pass_fold_eq (pid : Nat) (cur : Worker) (ws : List Worker) :
    pass_fold pid cur ws =
      (((cur :: ws).zip ws).map (fun uv => Command.pass uv.1.id pid uv.2.id),
        ws.getLastD cur) := by
  induction ws generalizing cur with
  | nil => rfl
  | cons w ws ih =>
    simp [pass_fold, ih w]
    cases ws with
    | nil => rfl
    | cons x xs =>
      rw [List.getLast?_cons_cons,
        List.getLast?_eq_getLast (x :: xs) (by simp)]
      rfl

/-- Claim C2: for every worker kind and pearl layer, the layer cost is the
integer ceiling of thickness over the rate from the fixed table (General
1/1/1, Vector 1/5/2, Matrix 1/2/10 for Red/Green/Blue), a zero-thickness
layer costs zero, and the pearl cost is the sum of the layer costs. -/
theorem cost_model_correct :
    ∀ (w : Worker) (l : PearlLayer) (p : Pearl) (c : PearlColor),
      ((w.cost_layer l : ℤ) =
          Int.ceil ((l.thickness : ℚ) / (processing_rate w.kind l.color : ℚ)))
        ∧ w.cost_layer ⟨c, 0⟩ = 0
        ∧ w.cost_pearl p = (p.layers.map (fun x => w.cost_layer x)).sum
        ∧ processing_rate .General c = 1
        ∧ processing_rate .Vector .Red = 1
        ∧ processing_rate .Vector .Green = 5
        ∧ processing_rate .Vector .Blue = 2
        ∧ processing_rate .Matrix .Red = 1
        ∧ processing_rate .Matrix .Green = 2
        ∧ processing_rate .Matrix .Blue = 10 := by
  intro w l p c
  refine ⟨?_, ?_, rfl, by cases c <;> rfl, rfl, rfl, rfl, rfl, rfl, rfl⟩
  · rw [cost_layer_eq_ceil]
    have hnn : (0 : ℚ) ≤ (l.thickness : ℚ) / (processing_rate w.kind l.color : ℚ) :=
      div_nonneg (Nat.cast_nonneg _) (Nat.cast_nonneg _)
    exact Int.toNat_of_nonneg (Int.ceil_nonneg hnn)
  · have hpos := processing_rate_pos w.kind c
    show (0 + processing_rate w.kind c - 1) / processing_rate w.kind c = 0
    exact Nat.div_eq_of_lt (by omega)

/-- Claim C8: a plan built from a route consists of one Pass per consecutive
route pair and, unless the pearl is digested, exactly
`cost_pearl(pearl, last)` Nom commands at the last route worker; for a
digested pearl there are only the Pass commands. -/
theorem plan_commands_shape :
    ∀ (pearl : Pearl) (cur : Worker) (rest : List Worker),
      create_commands_from_route pearl (cur :: rest) =
        (((cur :: rest).zip rest).map
            (fun uv => Command.pass uv.1.id pearl.id uv.2.id))
          ++ (if pearl.digested then []
              else List.replicate ((rest.getLastD cur).cost_pearl pearl)
                (Command.nom (rest.getLastD cur).id pearl.id)) := by
  intro pearl cur rest
  show (let r := pass_fold pearl.id cur rest
        if pearl.digested then r.1
        else r.1 ++ List.replicate (r.2.cost_pearl pearl) (Command.nom r.2.id pearl.id)) = _
  rw [pass_fold_eq]
  cases h : pearl.digested <;> simp

/-- Claim C1 (code bug): on scenario S2 of the specification — a snapshot
meeting every input precondition — `step` does not return a command map: the
pearl iteration yields pearl ids (`Worker.pearls` is a dict, so iterating it
yields keys) and the first `pearl.id` access raises AttributeError, which
escapes the `step` boundary. -/
theorem step_raises_attribute_error :
    (stepFaithfulAtlantis initState worldS2).1 = Except.error "AttributeError"
      ∧ worldS2.get_pearls_with_workers = [(7, ⟨0, .General, [pearlS2]⟩)] :=
  ⟨rfl, rfl⟩

/-- Claim C3 (code bug): in `find_shortest_path` from worker 0 on the 4-cycle
0-1, 0-2, 1-3, 2-3 with zero loads, node 3 is relaxed first through node 1
and again through node 2 at the equal new distance 2, yet the recorded
predecessor of 3 is node 2 — the later relaxation overwrites because the
guard reads `move_costs.get(n.id, inf)` from a Worker-keyed dict and never
finds the recorded distance.  The variant with the working read
(`find_shortest_path_claimed`, exactly the relaxation rule the claim states)
keeps the first-discovered predecessor, node 1. -/
theorem predecessor_overwritten_on_equal_distance :
    ((lookupA (find_shortest_path worldSquare (fun _ => 0) 0 none).1 3).map
        (fun w => w.id) = some 2)
      ∧ ((lookupA (find_shortest_path_claimed worldSquare (fun _ => 0) 0 none).1 3).map
          (fun w => w.id) = some 1)
      ∧ lookupA (find_shortest_path worldSquare (fun _ => 0) 0 none).2 1 = some 1
      ∧ lookupA (find_shortest_path worldSquare (fun _ => 0) 0 none).2 2 = some 1
      ∧ (2 : Nat) ≠ 1 :=
  ⟨rfl, rfl, rfl, rfl, by decide⟩

/-- Claim C7 (code bug): a digested pearl on the gatekeeper desk does not get
skipped: the builder returns the empty plan, the dispatcher stores it under
the pearl id and then indexes `plan[0]`, raising IndexError (in the shipped
composition this point is only reached after fixing the C1 iteration bug,
which masks it). -/
theorem digested_at_gatekeeper_raises :
    (stepAtlantis initState worldC7).1 = Except.error "IndexError"
      ∧ lookupA (stepAtlantis initState worldC7).2.execution_plans 9 = some []
      ∧ pearlC7.digested = true :=
  ⟨rfl, rfl, rfl⟩

/-- Claim C5 (counterexample): two Pass commands contend for worker 3; the
pearl with the larger remaining thickness (pearl 2, thickness 2) wins — its
command is emitted and its plan is popped — while the thinner pearl 1
produces nothing and keeps its plan, contradicting the claimed
thinnest-first key. -/
theorem contention_thickest_pass_wins :
    (stepAtlantis stateC5 worldC5).1 = Except.ok [(3, Command.pass 3 2 0)]
      ∧ lookupA (stepAtlantis stateC5 worldC5).2.execution_plans 1 =
          some [Command.pass 3 1 0]
      ∧ lookupA (stepAtlantis stateC5 worldC5).2.execution_plans 2 = none
      ∧ pearlC5a.remaining_thickness < pearlC5b.remaining_thickness :=
  ⟨rfl, rfl, rfl, by decide⟩

/-- Claim C6 (counterexample): pearl 7 is held by worker 3 but its stored
plan starts with a Nom at worker 5; `step` emits that stale command instead
of discarding the plan, although a rebuild for the current holder would
produce a plan acting at worker 3. -/
theorem stale_plan_not_rebuilt :
    (stepAtlantis stateC6 worldC6).1 = Except.ok [(5, Command.nom 5 7)]
      ∧ create_execution_plan worldC6 stateC6.worker_costs (fun _ => 0) pearlC6 workerC6 =
          some [Command.nom 3 7, Command.nom 3 7]
      ∧ (5 : Nat) ≠ 3 :=
  ⟨rfl, rfl, by decide⟩

/-- Claim C6 (amended): the dispatcher builds a fresh plan only when no plan
exists for the pearl id; an existing plan is reused unchanged — and the state
untouched — no matter which worker currently holds the pearl. -/
theorem acquire_plan_reuses_existing :
    ∀ (world : World) (aff : Nat → Nat) (s : SimState) (pearl : Pearl)
      (worker : Worker) (plan : List Command),
      lookupA s.execution_plans pearl.id = some plan →
      acquire_plan world aff s pearl worker = .ok (plan, s) := by
  intro world aff s pearl worker plan h
  unfold acquire_plan
  rw [h]

/-- Witness for `acquire_plan_reuses_existing`: the stale plan of `stateC6`
is reused as-is even though its command acts at worker 5 while the pearl sits
at worker 3. -/
theorem acquire_plan_reuses_existing_witness :
    acquire_plan worldC6 (fun _ => 0) stateC6 pearlC6 workerC6 =
      .ok ([Command.nom 5 7], stateC6) :=
  acquire_plan_reuses_existing worldC6 (fun _ => 0) stateC6 pearlC6 workerC6
    [Command.nom 5 7] rfl

/-- Claim C4 (counterexample): with a Red-1 pearl at the General gatekeeper
and a General neighbor, the claimed score — `move_cost + cost_pearl` with
initial bound `cost_pearl + 2 * |workers|` at the gatekeeper — strictly
prefers worker 1 (total 2 against bound 5), yet the source keeps the pearl at
the gatekeeper (route `[0]`): the searched score also carries the booked-load
and affinity terms, and the gatekeeper bound is
`cost_pearl + worker_costs[0] + affinity[0]` instead. -/
theorem select_best_ignores_claimed_score :
    ((select_best_worker_route worldC4 (fun _ => 0) affC4 pearlC4 workerC4a).map
        (fun r => r.map (fun w => w.id)) = some [0])
      ∧ workerC4b.cost_pearl pearlC4 + (1 + 0) <
          workerC4a.cost_pearl pearlC4 + 2 * worldC4.workers.length :=
  ⟨rfl, by decide⟩

/-- Plan acquisition never touches the memoized affinities. -/
theorem acquire_plan_worker_affinities :
    ∀ (world : World) (aff : Nat → Nat) (s : SimState) (pearl : Pearl) (worker : Worker)
      (plan : List Command) (s2 : SimState),
      acquire_plan world aff s pearl worker = .ok (plan, s2) →
      s2.worker_affinities = s.worker_affinities := by
  intro world aff s pearl worker plan s2 h
  unfold acquire_plan at h
  cases hl : lookupA s.execution_plans pearl.id with
  | some p =>
    rw [hl] at h
    simp only [Except.ok.injEq, Prod.mk.injEq] at h
    rw [← h.2]
  | none =>
    rw [hl] at h
    cases hc : create_execution_plan world s.worker_costs aff pearl worker with
    | none => rw [hc] at h; cases h
    | some p =>
      rw [hc] at h
      simp only [Except.ok.injEq, Prod.mk.injEq] at h
      rw [← h.2]

/-- The proposal-building loop never touches the memoized affinities. -/
theorem build_proposed_worker_affinities (world : World) (aff : Nat → Nat) :
    ∀ (ps : List (Pearl × Worker)) (s : SimState)
      (acc : List (Nat × List (ℚ × Nat × Command))),
      ((build_proposed world aff ps s acc).2).worker_affinities = s.worker_affinities := by
  intro ps
  induction ps with
  | nil => intro s acc; rfl
  | cons pw rest ih =>
    intro s acc
    obtain ⟨pearl, worker⟩ := pw
    show ((build_proposed world aff ((pearl, worker) :: rest) s acc).2).worker_affinities = _
    rw [build_proposed]
    cases ha : acquire_plan world aff s pearl worker with
    | error e => rfl
    | ok pr =>
      obtain ⟨plan, s2⟩ := pr
      have hs2 := acquire_plan_worker_affinities world aff s pearl worker plan s2 ha
      cases plan with
      | nil => exact hs2
      | cons cmd tl => rw [ih]; exact hs2

/-- The command-selection loop never touches the memoized affinities. -/
theorem select_commands_worker_affinities :
    ∀ (groups : List (Nat × List (ℚ × Nat × Command))) (s : SimState),
      ((select_commands groups s).2).worker_affinities = s.worker_affinities := by
  intro groups
  induction groups with
  | nil => intro s; rfl
  | cons g rest ih =>
    intro s
    obtain ⟨wid, grp⟩ := g
    show ((select_commands ((wid, grp) :: rest) s).2).worker_affinities = _
    rw [select_commands]
    split
    · rfl
    · dsimp only
      split
      · rfl
      · split
        · rfl
        · simp only [ih]
          split <;> rfl

/-- Claim C10: the scheduler computes the worker affinities at most once:
after any call to `step`, the stored affinities are the previously memoized
ones when they existed (whatever the new snapshot looks like), and otherwise
the affinities freshly derived from this first snapshot and the current
booked loads; this holds for the faithful model of the shipped `step` as
well. -/
theorem step_affinities_frozen :
    ∀ (s : SimState) (world : World),
      (((stepAtlantis s world).2).worker_affinities =
          (match s.worker_affinities with
           | some a => some a
           | none => create_worker_affinities world s.worker_costs))
        ∧ (((stepFaithfulAtlantis s world).2).worker_affinities =
          (match s.worker_affinities with
           | some a => some a
           | none => create_worker_affinities world s.worker_costs)) := by
  intro s world
  constructor
  · cases haff : s.worker_affinities with
    | some a =>
      simp only [stepAtlantis, haff]
      split
      · rw [build_proposed_worker_affinities]
      · rw [select_commands_worker_affinities, build_proposed_worker_affinities]
    | none =>
      cases hc : create_worker_affinities world s.worker_costs with
      | none => simp only [stepAtlantis, haff, hc]
      | some a =>
        simp only [stepAtlantis, haff, hc]
        split
        · rw [build_proposed_worker_affinities]
        · rw [select_commands_worker_affinities, build_proposed_worker_affinities]
  · cases haff : s.worker_affinities with
    | some a =>
      simp only [stepFaithfulAtlantis, haff]
      split <;> rfl
    | none =>
      cases hc : create_worker_affinities world s.worker_costs with
      | none => simp only [stepFaithfulAtlantis, haff, hc]
      | some a =>
        simp only [stepFaithfulAtlantis, haff, hc]
        split <;> rfl

/-- A key that `lookupA` misses is not among the stored keys. -/
theorem lookupA_none_not_mem {α : Type} {l : List (Nat × α)} {k : Nat}
    (h : lookupA l k = none) : k ∉ l.map Prod.fst := by
  induction l with
  | nil => simp
  | cons e rest ih =>
    obtain ⟨k1, v⟩ := e
    by_cases hk : k1 = k
    · rw [lookupA, if_pos hk] at h
      cases h
    · rw [lookupA, if_neg hk] at h
      simp only [List.map_cons, List.mem_cons]
      rintro (h1 | h2)
      · exact hk h1.symm
      · exact ih h h2

/-- `groupPush` appends the key only when it is new. -/
theorem groupPush_keys {g : List (Nat × List (ℚ × Nat × Command))} {k : Nat}
    {v : ℚ × Nat × Command} :
    (groupPush g k v).map Prod.fst =
      if lookupA g k = none then g.map Prod.fst ++ [k] else g.map Prod.fst := by
  induction g with
  | nil => simp [groupPush, lookupA]
  | cons e rest ih =>
    obtain ⟨k1, l⟩ := e
    by_cases hk : k1 = k
    · subst hk
      simp [groupPush, lookupA]
    · rw [groupPush, if_neg hk]
      simp only [List.map_cons]
      rw [ih, lookupA, if_neg hk]
      split <;> simp

/-- `groupPush` keeps the group keys duplicate-free. -/
theorem groupPush_nodup {g : List (Nat × List (ℚ × Nat × Command))} {k : Nat}
    {v : ℚ × Nat × Command} (h : (g.map Prod.fst).Nodup) :
    ((groupPush g k v).map Prod.fst).Nodup := by
  rw [groupPush_keys]
  split
  · rename_i hnone
    refine h.append (List.nodup_singleton k) ?_
    intro a ha hb
    simp only [List.mem_singleton] at hb
    subst hb
    exact lookupA_none_not_mem hnone ha
  · exact h

/-- Whenever the proposal-building loop finishes normally, its groups carry
duplicate-free worker keys (provided the accumulator does, which holds for the
empty start). -/
theorem build_proposed_ok_nodup (world : World) (aff : Nat → Nat) :
    ∀ (ps : List (Pearl × Worker)) (s : SimState)
      (acc : List (Nat × List (ℚ × Nat × Command)))
      (proposed : List (Nat × List (ℚ × Nat × Command))),
      (acc.map Prod.fst).Nodup →
      (build_proposed world aff ps s acc).1 = .ok proposed →
      (proposed.map Prod.fst).Nodup := by
  intro ps
  induction ps with
  | nil =>
    intro s acc proposed hacc h
    rw [build_proposed] at h
    cases h
    exact hacc
  | cons pw rest ih =>
    intro s acc proposed hacc h
    obtain ⟨pearl, worker⟩ := pw
    rw [build_proposed] at h
    split at h
    · cases h
    · split at h
      · cases h
      · exact ih _ _ _ (groupPush_nodup hacc) h

/-- A normally finishing selection loop emits exactly one command per
proposal group, keyed in group order. -/
theorem select_commands_ok_keys :
    ∀ (groups : List (Nat × List (ℚ × Nat × Command))) (s : SimState)
      (out : List (Nat × Command)),
      (select_commands groups s).1 = .ok out →
      out.map Prod.fst = groups.map Prod.fst := by
  intro groups
  induction groups with
  | nil =>
    intro s out h
    rw [select_commands] at h
    cases h
    rfl
  | cons g rest ih =>
    intro s out h
    obtain ⟨wid, grp⟩ := g
    rw [select_commands] at h
    split at h
    · cases h
    · dsimp only at h
      split at h
      · cases h
      · split at h
        · cases h
        · split at h <;>
          · dsimp only at h
            unfold Except.map at h
            split at h
            · cases h
            · rename_i v hr
              cases h
              simp only [List.map_cons]
              rw [ih _ _ hr]

/-- Claim C9: whenever `step` returns a command map, each worker id is a key
of that map at most once — for every snapshot and every prior scheduler
state. -/
theorem step_one_command_per_worker :
    ∀ (s : SimState) (world : World) (out : List (Nat × Command)),
      (stepAtlantis s world).1 = Except.ok out →
      (out.map Prod.fst).Nodup := by
  intro s world out h
  unfold stepAtlantis at h
  split at h
  · cases h
  · dsimp only at h
    split at h
    · cases h
    · rename_i proposed hb
      rw [select_commands_ok_keys _ _ _ h]
      exact build_proposed_ok_nodup _ _ _ _ _ _ (by simp) hb

/-- Witness for `step_one_command_per_worker`: a concrete normal run. -/
theorem step_one_command_per_worker_witness :
    (stepAtlantis initState worldC9).1 = Except.ok [(0, Command.nom 0 1)]
      ∧ (([(0, Command.nom 0 1)] : List (Nat × Command)).map Prod.fst).Nodup :=
  ⟨rfl, step_one_command_per_worker initState worldC9 [(0, Command.nom 0 1)] rfl⟩

/-- The heap order on proposal entries, unfolded. -/
theorem keyLtB_iff {a b : ℚ × Nat × Command} :
    keyLtB a b = true ↔ (a.1 < b.1 ∨ (a.1 = b.1 ∧ a.2.1 < b.2.1)) := by
  simp [keyLtB]

theorem keyLtB_false_iff {a b : ℚ × Nat × Command} :
    keyLtB a b = false ↔ ¬(a.1 < b.1 ∨ (a.1 = b.1 ∧ a.2.1 < b.2.1)) := by
  constructor
  · intro h hcontra
    rw [← keyLtB_iff] at hcontra
    rw [h] at hcontra
    cases hcontra
  · intro h
    cases hb : keyLtB a b
    · rfl
    · exact absurd (keyLtB_iff.mp hb) h

theorem keyLtB_irrefl (a : ℚ × Nat × Command) : keyLtB a a = false := by
  rw [keyLtB_false_iff]
  simp

theorem keyLtB_trans {a b c : ℚ × Nat × Command} (h1 : keyLtB a b = true)
    (h2 : keyLtB b c = true) : keyLtB a c = true := by
  rw [keyLtB_iff] at h1 h2 ⊢
  rcases h1 with h1 | ⟨e1, l1⟩ <;> rcases h2 with h2 | ⟨e2, l2⟩
  · exact Or.inl (lt_trans h1 h2)
  · exact Or.inl (e2 ▸ h1)
  · exact Or.inl (e1 ▸ h2)
  · exact Or.inr ⟨e1.trans e2, lt_trans l1 l2⟩

theorem keyLtB_false_trans {a b c : ℚ × Nat × Command} (h1 : keyLtB a b = false)
    (h2 : keyLtB b c = false) : keyLtB a c = false := by
  rw [keyLtB_false_iff] at h1 h2 ⊢
  push_neg at h1 h2 ⊢
  obtain ⟨hb1, hb2⟩ := h1
  obtain ⟨hc1, hc2⟩ := h2
  constructor
  · linarith
  · intro heq
    have hab : a.1 = b.1 := le_antisymm (by rw [heq]; exact hc1) hb1
    have hbc : b.1 = c.1 := by rw [← hab, heq]
    have nb := hb2 hab
    have nc := hc2 hbc
    omega

/-- The winner the selection loop pops is a group member no other member
strictly precedes in the heap order. -/
theorem popMinG_min :
    ∀ (gs : List (ℚ × Nat × Command)) (e : ℚ × Nat × Command),
      (gs.foldl (fun m y => if keyLtB y m then y else m) e) ∈ e :: gs
        ∧ ∀ x ∈ e :: gs,
            keyLtB x (gs.foldl (fun m y => if keyLtB y m then y else m) e) = false := by
  intro gs
  induction gs with
  | nil =>
    intro e
    refine ⟨by simp, ?_⟩
    intro x hx
    rw [List.mem_singleton] at hx
    subst hx
    exact keyLtB_irrefl x
  | cons y gs ih =>
    intro e
    simp only [List.foldl_cons]
    by_cases hy : keyLtB y e = true
    · rw [if_pos hy]
      obtain ⟨ihmem, ihmin⟩ := ih y
      constructor
      · rcases List.mem_cons.mp ihmem with h | h
        · rw [h]
          exact List.mem_cons.mpr (Or.inr (List.mem_cons_self _ _))
        · exact List.mem_cons.mpr (Or.inr (List.mem_cons.mpr (Or.inr h)))
      · intro x hx
        rcases List.mem_cons.mp hx with hxe | hx2
        · rw [hxe]
          have hyr := ihmin y (List.mem_cons_self _ _)
          cases her : keyLtB e (gs.foldl (fun m z => if keyLtB z m then z else m) y)
          · rfl
          · have h3 := keyLtB_trans hy her
            rw [hyr] at h3
            cases h3
        · rcases List.mem_cons.mp hx2 with hxy | hxgs
          · rw [hxy]
            exact ihmin y (List.mem_cons_self _ _)
          · exact ihmin x (List.mem_cons.mpr (Or.inr hxgs))
    · rw [Bool.not_eq_true] at hy
      rw [if_neg (by simp [hy])]
      obtain ⟨ihmem, ihmin⟩ := ih e
      constructor
      · rcases List.mem_cons.mp ihmem with h | h
        · rw [h]
          exact List.mem_cons_self _ _
        · exact List.mem_cons.mpr (Or.inr (List.mem_cons.mpr (Or.inr h)))
      · intro x hx
        rcases List.mem_cons.mp hx with hxe | hx2
        · rw [hxe]
          exact ihmin e (List.mem_cons_self _ _)
        · rcases List.mem_cons.mp hx2 with hxy | hxgs
          · rw [hxy]
            exact keyLtB_false_trans hy (ihmin e (List.mem_cons_self _ _))
          · exact ihmin x (List.mem_cons.mpr (Or.inr hxgs))

/-- Writing another key leaves a lookup unchanged. -/
theorem lookupA_setA_ne {α : Type} (l : List (Nat × α)) (k j : Nat) (v : α)
    (h : j ≠ k) : lookupA (setA l k v) j = lookupA l j := by
  induction l with
  | nil =>
    show (if k = j then some v else lookupA [] j) = lookupA ([] : List (Nat × α)) j
    rw [if_neg (fun hk => h hk.symm)]
  | cons e rest ih =>
    obtain ⟨k1, v1⟩ := e
    by_cases hk : k1 = k
    · subst hk
      rw [setA, if_pos rfl, lookupA, lookupA, if_neg (fun hk => h hk.symm),
        if_neg (fun hk => h hk.symm)]
    · rw [setA, if_neg hk, lookupA, lookupA]
      split
      · rfl
      · exact ih

/-- Removing another key leaves a lookup unchanged. -/
theorem lookupA_removeA_ne {α : Type} (l : List (Nat × α)) (k j : Nat)
    (h : j ≠ k) : lookupA (removeA l k) j = lookupA l j := by
  induction l with
  | nil => rfl
  | cons e rest ih =>
    obtain ⟨k1, v1⟩ := e
    by_cases hk : k1 = k
    · subst hk
      rw [removeA, if_pos rfl, lookupA, if_neg (fun hk => h hk.symm)]
    · rw [removeA, if_neg hk, lookupA, lookupA]
      split
      · rfl
      · exact ih

/-- Unfolding of `selectedPids` on a cons. -/
theorem selectedPids_cons (wid : Nat) (grp : List (ℚ × Nat × Command))
    (rest : List (Nat × List (ℚ × Nat × Command))) :
    selectedPids ((wid, grp) :: rest) =
      (match popMinG grp with
       | some m => m.2.1 :: selectedPids rest
       | none => selectedPids rest) := by
  unfold selectedPids
  rw [List.filterMap_cons]
  cases popMinG grp <;> rfl

/-- The selection loop touches only the plans of the winning pearls. -/
theorem select_commands_untouched :
    ∀ (groups : List (Nat × List (ℚ × Nat × Command))) (s : SimState) (pid : Nat),
      pid ∉ selectedPids groups →
      lookupA ((select_commands groups s).2).execution_plans pid =
        lookupA s.execution_plans pid := by
  intro groups
  induction groups with
  | nil => intro s pid _; rfl
  | cons g rest ih =>
    intro s pid hpid
    obtain ⟨wid, grp⟩ := g
    rw [selectedPids_cons] at hpid
    rw [select_commands]
    cases hm : popMinG grp with
    | none => rfl
    | some sel =>
      rw [hm] at hpid
      rw [List.mem_cons] at hpid
      push_neg at hpid
      obtain ⟨hne, hrest⟩ := hpid
      dsimp only
      split
      · rfl
      · split
        · rfl
        · rename_i plan c tl _ _
          show lookupA ((let s3 : SimState := _
                         let r := select_commands rest s3
                         (r.1.map (fun out => (wid, sel.2.2) :: out), r.2)).2).execution_plans
                  pid = _
          dsimp only
          rw [ih _ _ hrest]
          split
          · exact lookupA_removeA_ne _ _ _ hne
          · exact lookupA_setA_ne _ _ _ _ hne

/-- Among Pass priorities the reciprocal order reverses the thickness
order. -/
theorem recipQ_antitone {t u : Nat} (h0 : 0 < t) (h : t < u) :
    recipQ u < recipQ t := by
  rw [recipQ_eq_one_div, recipQ_eq_one_div, if_neg (by omega), if_neg (by omega)]
  rw [one_div_lt_one_div (by exact_mod_cast lt_trans h0 h : (0 : ℚ) < (u : ℚ))
    (by exact_mod_cast h0 : (0 : ℚ) < (t : ℚ))]
  exact_mod_cast h

/-- Claim C5 (amended): contention on a worker is decided by the ascending
lexicographic key `(priority, pearl_id)`, where a Nom command gets priority
`remaining_thickness` and a Pass command the reciprocal `1/remaining_thickness`
(0 when the thickness is 0) — so among Nom contenders the smallest thickness
wins (ties by smaller id) while among Pass contenders the largest thickness
wins — and the losing pearls' plans are left untouched. -/
theorem contention_priority_amended :
    (∀ (e : ℚ × Nat × Command) (gs : List (ℚ × Nat × Command)),
        ∃ m, popMinG (e :: gs) = some m ∧ m ∈ e :: gs
          ∧ ∀ x ∈ e :: gs, keyLtB x m = false)
      ∧ (∀ (a b : ℚ × Nat × Command),
          keyLtB a b = true ↔ (a.1 < b.1 ∨ (a.1 = b.1 ∧ a.2.1 < b.2.1)))
      ∧ (∀ (p : Pearl) (w q t : Nat),
          prioritize_command (Command.pass w q t) p = recipQ p.remaining_thickness
            ∧ recipQ p.remaining_thickness =
                (if p.remaining_thickness = 0 then 0
                 else 1 / (p.remaining_thickness : ℚ))
            ∧ prioritize_command (Command.nom w q) p = (p.remaining_thickness : ℚ))
      ∧ (∀ t u : Nat, 0 < t → t < u → recipQ u < recipQ t)
      ∧ (∀ (groups : List (Nat × List (ℚ × Nat × Command))) (s : SimState) (pid : Nat),
          pid ∉ selectedPids groups →
          lookupA ((select_commands groups s).2).execution_plans pid =
            lookupA s.execution_plans pid) := by
  refine ⟨?_, fun a b => keyLtB_iff, fun p w q t => ⟨rfl, recipQ_eq_one_div _, rfl⟩,
    fun t u h0 h => recipQ_antitone h0 h, select_commands_untouched⟩
  intro e gs
  exact ⟨_, rfl, (popMinG_min gs e).1, (popMinG_min gs e).2⟩

/-- Witness for `contention_priority_amended`: with the two Pass proposals of
`stateC5` the thickness-2 entry precedes the thickness-1 entry in the heap
order, and the loser's plan lookup is untouched by the selection loop. -/
theorem contention_priority_amended_witness :
    keyLtB (recipQ 2, 2, Command.pass 3 2 0) (recipQ 1, 1, Command.pass 3 1 0) = true
      ∧ recipQ 2 < recipQ 1
      ∧ lookupA ((select_commands
            [(3, [(recipQ 1, 1, Command.pass 3 1 0), (recipQ 2, 2, Command.pass 3 2 0)])]
            stateC5).2).execution_plans 1 =
          lookupA stateC5.execution_plans 1 := by
  have hlt := contention_priority_amended.2.2.2.1 1 2 (by decide) (by decide)
  refine ⟨?_, hlt, ?_⟩
  · exact (contention_priority_amended.2.1 _ _).mpr (Or.inl hlt)
  · exact contention_priority_amended.2.2.2.2 _ stateC5 1 (by decide)

theorem if_lt_eq_min (a b : Nat) : (if b < a then b else a) = min a b := by
  rcases Nat.lt_or_ge b a with h | h
  · rw [if_pos h, Nat.min_eq_right (Nat.le_of_lt h)]
  · rw [if_neg (Nat.not_lt.mpr h), Nat.min_eq_left h]

/-- One relaxation of the routing search, as an if on the skip test. -/
theorem sbw_relax_step (pearl : Pearl) (wc aff : Nat → Nat) (w : Worker) (mc1 : Nat)
    (q : List (Nat × Worker)) (mcs : List (Nat × Nat)) (ps : List (Nat × Worker))
    (bc : Nat) (bw : Worker) (n : Worker) :
    sbw_relax pearl wc aff w mc1 (q, mcs, ps, bc, bw) n =
      if (match lookupA mcs n.id with
          | some old => decide (old ≤ mc1)
          | none => false) = true then (q, mcs, ps, bc, bw)
      else
        (q ++ [(mc1, n)], setA mcs n.id mc1, setA ps n.id w,
          (if totalOf pearl wc aff (mc1, n) < bc then totalOf pearl wc aff (mc1, n) else bc),
          (if totalOf pearl wc aff (mc1, n) < bc then n else bw)) := by
  rw [sbw_relax]
  simp only [totalOf]
  split
  · rfl
  · split
    · rfl
    · rfl

/-- One event-recording relaxation, as an if on the same skip test. -/
theorem sbw_relax_ev_step (pearl : Pearl) (wc aff : Nat → Nat) (mc1 : Nat)
    (q : List (Nat × Worker)) (mcs : List (Nat × Nat)) (bc : Nat)
    (ev : List (Nat × Worker)) (n : Worker) :
    sbw_relax_ev pearl wc aff mc1 (q, mcs, bc, ev) n =
      if (match lookupA mcs n.id with
          | some old => decide (old ≤ mc1)
          | none => false) = true then (q, mcs, bc, ev)
      else
        (q ++ [(mc1, n)], setA mcs n.id mc1,
          (if totalOf pearl wc aff (mc1, n) < bc then totalOf pearl wc aff (mc1, n) else bc),
          ev ++ [(mc1, n)]) := by
  rw [sbw_relax_ev]
  dsimp only
  split
  · rfl
  · split
    · rfl
    · rfl

/-- The event-recording fold mirrors the search fold: queues, move costs and
best costs agree, the recorded events extend the accumulator, the best cost
is the minimum of the entry best cost and the totals of the recorded events,
and the best worker either survives or comes from a recorded event. -/
theorem sbw_relax_pair (pearl : Pearl) (wc aff : Nat → Nat) (w : Worker) (mc1 : Nat) :
    ∀ (ns : List Worker) (q : List (Nat × Worker)) (mcs : List (Nat × Nat))
      (ps : List (Nat × Worker)) (bc : Nat) (bw : Worker) (ev0 : List (Nat × Worker)),
      (ns.foldl (sbw_relax_ev pearl wc aff mc1) (q, mcs, bc, ev0)).1 =
          (ns.foldl (sbw_relax pearl wc aff w mc1) (q, mcs, ps, bc, bw)).1
        ∧ (ns.foldl (sbw_relax_ev pearl wc aff mc1) (q, mcs, bc, ev0)).2.1 =
          (ns.foldl (sbw_relax pearl wc aff w mc1) (q, mcs, ps, bc, bw)).2.1
        ∧ (ns.foldl (sbw_relax_ev pearl wc aff mc1) (q, mcs, bc, ev0)).2.2.1 =
          (ns.foldl (sbw_relax pearl wc aff w mc1) (q, mcs, ps, bc, bw)).2.2.2.1
        ∧ ∃ evs,
            (ns.foldl (sbw_relax_ev pearl wc aff mc1) (q, mcs, bc, ev0)).2.2.2 = ev0 ++ evs
              ∧ (ns.foldl (sbw_relax pearl wc aff w mc1) (q, mcs, ps, bc, bw)).2.2.2.1 =
                  (evs.map (totalOf pearl wc aff)).foldl min bc
              ∧ ((ns.foldl (sbw_relax pearl wc aff w mc1) (q, mcs, ps, bc, bw)).2.2.2.1 = bc
                    ∧ (ns.foldl (sbw_relax pearl wc aff w mc1) (q, mcs, ps, bc, bw)).2.2.2.2 = bw
                  ∨ ∃ e, e ∈ evs
                      ∧ (ns.foldl (sbw_relax pearl wc aff w mc1)
                          (q, mcs, ps, bc, bw)).2.2.2.1 = totalOf pearl wc aff e
                      ∧ (ns.foldl (sbw_relax pearl wc aff w mc1)
                          (q, mcs, ps, bc, bw)).2.2.2.2 = e.2) := by
  intro ns
  induction ns with
  | nil =>
    intro q mcs ps bc bw ev0
    exact ⟨rfl, rfl, rfl, [], by simp, rfl, Or.inl ⟨rfl, rfl⟩⟩
  | cons n ns ih =>
    intro q mcs ps bc bw ev0
    rw [List.foldl_cons, List.foldl_cons, sbw_relax_step, sbw_relax_ev_step]
    by_cases hskip :
        (match lookupA mcs n.id with
         | some old => decide (old ≤ mc1)
         | none => false) = true
    · rw [if_pos hskip, if_pos hskip]
      exact ih q mcs ps bc bw ev0
    · rw [if_neg hskip, if_neg hskip]
      by_cases ht : totalOf pearl wc aff (mc1, n) < bc
      · rw [if_pos ht, if_pos ht]
        obtain ⟨h1, h2, h3, evs2, hev, hmin, hbest⟩ :=
          ih (q ++ [(mc1, n)]) (setA mcs n.id mc1) (setA ps n.id w)
            (totalOf pearl wc aff (mc1, n)) n (ev0 ++ [(mc1, n)])
        refine ⟨h1, h2, h3, (mc1, n) :: evs2, by rw [hev]; simp, ?_, ?_⟩
        · rw [hmin, List.map_cons, List.foldl_cons,
            Nat.min_eq_right (Nat.le_of_lt ht)]
        · rcases hbest with ⟨hbc, hbw⟩ | ⟨e, hmem, hbc, hbw⟩
          · exact Or.inr ⟨(mc1, n), List.mem_cons_self _ _, hbc, hbw⟩
          · exact Or.inr ⟨e, List.mem_cons.mpr (Or.inr hmem), hbc, hbw⟩
      · rw [if_neg ht, if_neg ht]
        obtain ⟨h1, h2, h3, evs2, hev, hmin, hbest⟩ :=
          ih (q ++ [(mc1, n)]) (setA mcs n.id mc1) (setA ps n.id w) bc bw
            (ev0 ++ [(mc1, n)])
        refine ⟨h1, h2, h3, (mc1, n) :: evs2, by rw [hev]; simp, ?_, ?_⟩
        · rw [hmin, List.map_cons, List.foldl_cons,
            Nat.min_eq_left (Nat.not_lt.mp ht)]
        · rcases hbest with ⟨hbc, hbw⟩ | ⟨e, hmem, hbc, hbw⟩
          · exact Or.inl ⟨hbc, hbw⟩
          · exact Or.inr ⟨e, List.mem_cons.mpr (Or.inr hmem), hbc, hbw⟩

/-- Claim C4 helper: the best cost `sbw_go` returns is the minimum of the
entry best cost and the totals of every relaxation event the search
evaluates, and the best worker attains it. -/
theorem sbw_go_min (world : World) (pearl : Pearl) (wc aff : Nat → Nat) :
    ∀ (fuel : Nat) (q : List (Nat × Worker)) (mcs : List (Nat × Nat))
      (ps : List (Nat × Worker)) (bc : Nat) (bw : Worker),
      (sbw_go world pearl wc aff fuel q mcs ps bc bw).1 =
          ((sbw_events world pearl wc aff fuel q mcs bc).map
              (totalOf pearl wc aff)).foldl min bc
        ∧ ((sbw_go world pearl wc aff fuel q mcs ps bc bw).1 = bc
              ∧ (sbw_go world pearl wc aff fuel q mcs ps bc bw).2.1 = bw
            ∨ ∃ e, e ∈ sbw_events world pearl wc aff fuel q mcs bc
                ∧ (sbw_go world pearl wc aff fuel q mcs ps bc bw).1 =
                    totalOf pearl wc aff e
                ∧ (sbw_go world pearl wc aff fuel q mcs ps bc bw).2.1 = e.2) := by
  intro fuel
  induction fuel with
  | zero =>
    intro q mcs ps bc bw
    exact ⟨rfl, Or.inl ⟨rfl, rfl⟩⟩
  | succ fuel ih =>
    intro q mcs ps bc bw
    rw [sbw_go.eq_def, sbw_events.eq_def]
    dsimp only
    cases q with
    | nil => exact ⟨rfl, Or.inl ⟨rfl, rfl⟩⟩
    | cons head rest =>
      obtain ⟨mc, w⟩ := head
      dsimp only
      by_cases hle : bc ≤ mc
      · rw [if_pos hle, if_pos hle]
        exact ih rest mcs ps bc bw
      · rw [if_neg hle, if_neg hle]
        obtain ⟨h1, h2, h3, evs, hev, hmin, hbest⟩ :=
          sbw_relax_pair pearl wc aff w (mc + 1) (world.worker_neighbors w.id)
            rest mcs ps bc bw []
        rw [hev, h1, h2, h3]
        simp only [List.nil_append]
        obtain ⟨ihmin, ihbest⟩ :=
          ih ((world.worker_neighbors w.id).foldl (sbw_relax pearl wc aff w (mc + 1))
                (rest, mcs, ps, bc, bw)).1
            ((world.worker_neighbors w.id).foldl (sbw_relax pearl wc aff w (mc + 1))
                (rest, mcs, ps, bc, bw)).2.1
            ((world.worker_neighbors w.id).foldl (sbw_relax pearl wc aff w (mc + 1))
                (rest, mcs, ps, bc, bw)).2.2.1
            ((world.worker_neighbors w.id).foldl (sbw_relax pearl wc aff w (mc + 1))
                (rest, mcs, ps, bc, bw)).2.2.2.1
            ((world.worker_neighbors w.id).foldl (sbw_relax pearl wc aff w (mc + 1))
                (rest, mcs, ps, bc, bw)).2.2.2.2
        constructor
        · rw [ihmin, List.map_append, List.foldl_append, hmin]
        · rcases ihbest with ⟨hbc, hbw⟩ | ⟨e, hmem, hbc, hbw⟩
          · rcases hbest with ⟨hbc0, hbw0⟩ | ⟨e, hmem, hbc0, hbw0⟩
            · exact Or.inl ⟨hbc.trans hbc0, hbw.trans hbw0⟩
            · exact Or.inr ⟨e, List.mem_append.mpr (Or.inl hmem),
                hbc.trans hbc0, hbw.trans hbw0⟩
          · exact Or.inr ⟨e, List.mem_append.mpr (Or.inr hmem), hbc, hbw⟩

/-- Claim C4 (amended): for a non-digested pearl at worker S, the plan
builder selects the target minimizing the evaluated score
`total(w) = move_cost + cost_pearl(pearl, w) + worker_load[w] + affinity[w]`
over S and every relaxation event of the search, where the move cost counts
one unit per step (booked loads do not enter the move cost), and the entry
bound is `cost_pearl(pearl, S) + worker_load[S] + affinity[S]` with no
gatekeeper-specific `2 * |workers|` term: the returned best cost is the
minimum of that bound and the totals of all evaluated events, and the
returned best worker attains it. -/
theorem select_best_total_amended :
    ∀ (world : World) (pearl : Pearl) (wc aff : Nat → Nat) (fuel : Nat)
      (worker : Worker),
      (sbw_go world pearl wc aff fuel [(0, worker)] [(worker.id, 0)] []
            (worker.cost_pearl pearl + (wc worker.id + aff worker.id)) worker).1 =
          ((sbw_events world pearl wc aff fuel [(0, worker)] [(worker.id, 0)]
                (worker.cost_pearl pearl + (wc worker.id + aff worker.id))).map
              (totalOf pearl wc aff)).foldl min
            (worker.cost_pearl pearl + (wc worker.id + aff worker.id))
        ∧ ((sbw_go world pearl wc aff fuel [(0, worker)] [(worker.id, 0)] []
              (worker.cost_pearl pearl + (wc worker.id + aff worker.id)) worker).1 =
                worker.cost_pearl pearl + (wc worker.id + aff worker.id)
              ∧ (sbw_go world pearl wc aff fuel [(0, worker)] [(worker.id, 0)] []
                  (worker.cost_pearl pearl + (wc worker.id + aff worker.id)) worker).2.1 =
                  worker
            ∨ ∃ e, e ∈ sbw_events world pearl wc aff fuel [(0, worker)] [(worker.id, 0)]
                  (worker.cost_pearl pearl + (wc worker.id + aff worker.id))
                ∧ (sbw_go world pearl wc aff fuel [(0, worker)] [(worker.id, 0)] []
                    (worker.cost_pearl pearl + (wc worker.id + aff worker.id)) worker).1 =
                    totalOf pearl wc aff e
                ∧ (sbw_go world pearl wc aff fuel [(0, worker)] [(worker.id, 0)] []
                    (worker.cost_pearl pearl + (wc worker.id + aff worker.id)) worker).2.1 =
                    e.2) := by
  intro world pearl wc aff fuel worker
  exact sbw_go_min world pearl wc aff fuel [(0, worker)] [(worker.id, 0)] [] _ worker

end Atlantis
